import Mathlib

/-!
Verification of the belief-matrix and planner components of the pyworker
repository.  The Python module `pyworker/matrix.py` works on non-empty square
numpy arrays of doubles; we embed it over exact real numbers, with an n by n
matrix represented as `Matrix (Fin n) (Fin n) ℝ`.  The module
`pyworker/monte.py` supplies the planner state; it is embedded below as well.
-/

namespace PyWorker

noncomputable section

/-- Model of `LEAST_NONZERO_MAGNITUDE = np.finfo(np.float64).smallest_normal`,
the smallest positive normal double, which is 2 to the power -1022. -/
def LEAST_NONZERO_MAGNITUDE : ℝ := 2 ^ (-1022 : ℤ)

/-- Model of `is_empty`: the matrix has shape 1 by 1 and its (only) entry,
`matrix[0, 0]`, is zero. -/
def is_empty {n : ℕ} (M : Matrix (Fin n) (Fin n) ℝ) : Prop :=
  n = 1 ∧ ∀ i j, M i j = 0

/-- Model of `np.max(result[i, :])` inside `soft_max`: the maximum entry of
row i. -/
def rowMax {n : ℕ} [NeZero n] (M : Matrix (Fin n) (Fin n) ℝ) (i : Fin n) : ℝ :=
  haveI : Nonempty (Fin n) := ⟨⟨0, Nat.pos_of_ne_zero (NeZero.ne n)⟩⟩
  Finset.univ.sup' Finset.univ_nonempty fun j => M i j

/-- Model of `row_exp_values = np.exp(result[i, :] - row_max)` in `soft_max`. -/
def rowExp {n : ℕ} [NeZero n] (M : Matrix (Fin n) (Fin n) ℝ) (i j : Fin n) : ℝ :=
  Real.exp (M i j - rowMax M i)

/-- Model of `row_sum = np.sum(row_exp_values)` in `soft_max`. -/
def rowSum {n : ℕ} [NeZero n] (M : Matrix (Fin n) (Fin n) ℝ) (i : Fin n) : ℝ :=
  ∑ j, rowExp M i j

/-- One iteration of the `for i in range(size)` loop of `soft_max`: when the
row sum exceeds the floor, write the normalized row into row i
(`result[i, :] = normalized_values`) and then into column i
(`result[:, i] = normalized_values`); otherwise leave the matrix unchanged. -/
def softMaxStep {n : ℕ} [NeZero n] (M : Matrix (Fin n) (Fin n) ℝ) (i : Fin n) :
    Matrix (Fin n) (Fin n) ℝ :=
  if LEAST_NONZERO_MAGNITUDE < rowSum M i then
    fun a b =>
      if a = i then rowExp M i b / rowSum M i
      else if b = i then rowExp M i a / rowSum M i
      else M a b
  else M

open scoped Classical in
/-- Model of `soft_max`: return a copy unchanged when the matrix is the empty
sentinel, otherwise run the row loop in index order. -/
def soft_max {n : ℕ} [NeZero n] (M : Matrix (Fin n) (Fin n) ℝ) :
    Matrix (Fin n) (Fin n) ℝ :=
  if is_empty M then M else (List.finRange n).foldl softMaxStep M

/-- Model of `matrix_or` on matrices of equal (statically enforced) shape:
elementwise addition followed by `soft_max`. -/
def matrix_or {n : ℕ} [NeZero n] (matrix1 matrix2 : Matrix (Fin n) (Fin n) ℝ) :
    Matrix (Fin n) (Fin n) ℝ :=
  soft_max (matrix1 + matrix2)

/-- Model of `np.clip(value, lo, hi)`. -/
def clip (value lo hi : ℝ) : ℝ := min (max value lo) hi

/-- The summand `h` of `calc_entropy`: binary Shannon entropy of a clipped
probability, `-(p * np.log2(p) + (1 - p) * np.log2(1 - p))`. -/
def binEntropy (p : ℝ) : ℝ :=
  -(p * Real.logb 2 p + (1 - p) * Real.logb 2 (1 - p))

open scoped Classical in
/-- Model of `calc_entropy`: 0 for the empty sentinel, otherwise the sum of
`binEntropy` of the clipped entries over the upper triangle
(`for i in range(size): for j in range(i, size)`). -/
def calc_entropy {n : ℕ} (M : Matrix (Fin n) (Fin n) ℝ) : ℝ :=
  if is_empty M then 0
  else
    ∑ i, ∑ j ∈ Finset.univ.filter (fun j => i ≤ j),
      binEntropy (clip (M i j) LEAST_NONZERO_MAGNITUDE (1 - LEAST_NONZERO_MAGNITUDE))

open scoped Classical in
/-- Model of `count_non_zero`: `np.count_nonzero(matrix)`. -/
def count_non_zero {n : ℕ} (M : Matrix (Fin n) (Fin n) ℝ) : ℕ :=
  ((Finset.univ ×ˢ Finset.univ).filter fun p : Fin n × Fin n => M p.1 p.2 ≠ 0).card

/-- Model of `is_valid`: false for the empty sentinel, false when some row has
no entry strictly above the floor (`np.any(matrix[i, :] > LEAST...)` fails),
false when some column has no entry strictly above the floor, true
otherwise. -/
def is_valid {n : ℕ} (M : Matrix (Fin n) (Fin n) ℝ) : Prop :=
  ¬is_empty M ∧
    (∀ i, ∃ j, LEAST_NONZERO_MAGNITUDE < M i j) ∧
    (∀ j, ∃ i, LEAST_NONZERO_MAGNITUDE < M i j)

/-- Model of `create_matrix` on a list of rows.  The `np.array(matrix_data,
dtype=np.float64)` call raises ValueError first when the rows do not all have
the same length (an inhomogeneous nested list cannot become a float64 array);
then the explicit guard raises when the array is empty or not square
(`shape[1]` is the length of the first row); otherwise the square matrix of
the entries is returned. -/
def create_matrix (matrix_data : List (List ℝ)) :
    Except String ((k : ℕ) × Matrix (Fin k) (Fin k) ℝ) :=
  if ∃ r ∈ matrix_data, r.length ≠ (matrix_data.headD []).length then
    Except.error "inhomogeneous shape"
  else if matrix_data.length = 0 ∨ (matrix_data.headD []).length ≠ matrix_data.length then
    Except.error "Matrix must be non-empty and square"
  else
    Except.ok ⟨matrix_data.length, fun i j => (matrix_data.getD i.val []).getD j.val 0⟩

/-- Model of `create_matrix_with_value`: error for non-positive size,
otherwise the constant square matrix. -/
def create_matrix_with_value (size : ℤ) (value : ℝ) :
    Except String ((k : ℕ) × Matrix (Fin k) (Fin k) ℝ) :=
  if size ≤ 0 then Except.error "Matrix size must be positive"
  else Except.ok ⟨size.toNat, fun _ _ => value⟩

/-- Model of `empty_matrix()`, the canonical empty sentinel
`create_matrix_with_value(1, 0.0)`: the 1 by 1 zero matrix. -/
def empty_matrix : Matrix (Fin 1) (Fin 1) ℝ := fun _ _ => 0

/-- Model of `copy_matrix`: numpy copy, the same matrix value. -/
def copy_matrix {n : ℕ} (M : Matrix (Fin n) (Fin n) ℝ) : Matrix (Fin n) (Fin n) ℝ :=
  M

/-- Model of the shape guard of `matrix_or` on matrices of possibly different
sizes: error when the dimensions differ, otherwise `matrix_or`. -/
def matrix_or_checked {n m : ℕ} [NeZero n] (matrix1 : Matrix (Fin n) (Fin n) ℝ)
    (matrix2 : Matrix (Fin m) (Fin m) ℝ) : Except String (Matrix (Fin n) (Fin n) ℝ) :=
  if h : n = m then
    Except.ok (matrix_or matrix1 fun a b => matrix2 (Fin.cast h a) (Fin.cast h b))
  else Except.error "Matrix dimensions must match"

/-- A fallible computation succeeded: it returned `Except.ok`. -/
def okResult {ε α : Type} (e : Except ε α) : Prop :=
  ∃ a, e = Except.ok a

end

/-! Model of `pyworker/monte.py`. -/

/-- Model of `DOORS = 6`. -/
def DOORS : ℕ := 6

/-- Model of `LABEL_COUNT = 4`. -/
def LABEL_COUNT : ℕ := 4

/-- Model of the `Outcome` dataclass. -/
structure Outcome where
  current_room : ℤ
  entropy : ℝ
  matrix : (k : ℕ) × Matrix (Fin k) (Fin k) ℝ

/-- Model of the `State` dataclass of `monte.py`. -/
structure State where
  current_room : ℤ
  matrix : (k : ℕ) × Matrix (Fin k) (Fin k) ℝ
  steps : List ℤ
  outcomes : List Outcome

/-- Model of `State.is_possible`. -/
def State.is_possible (s : State) : Prop :=
  is_valid s.matrix.2

/-- Model of `State.getPossibleActions`: `[i for i in range(DOORS)]`. -/
def State.getPossibleActions (_ : State) : List ℕ :=
  List.range DOORS

noncomputable section

/-- Scenario 3 first operand, the matrix [[0, 1], [1, 0]]. -/
def mat3A : Matrix (Fin 2) (Fin 2) ℝ := !![0, 1; 1, 0]

/-- Scenario 3 second operand, the matrix [[1, 0], [0, 1]]. -/
def mat3B : Matrix (Fin 2) (Fin 2) ℝ := !![1, 0; 0, 1]

/-- The 2 by 2 all-ones matrix, the elementwise sum of the Scenario 3
operands. -/
def ones2 : Matrix (Fin 2) (Fin 2) ℝ := fun _ _ => 1

/-- The 2 by 2 all-zero matrix. -/
def zero2 : Matrix (Fin 2) (Fin 2) ℝ := fun _ _ => 0

/-- The 1 by 1 matrix with single entry -1. -/
def negOne1 : Matrix (Fin 1) (Fin 1) ℝ := fun _ _ => -1

end

/-! Helper lemmas about the floor constant. -/

lemma L_pos : 0 < LEAST_NONZERO_MAGNITUDE := by
  unfold LEAST_NONZERO_MAGNITUDE
  positivity

lemma L_lt_one : LEAST_NONZERO_MAGNITUDE < 1 := by
  unfold LEAST_NONZERO_MAGNITUDE
  norm_num

lemma L_le_half : LEAST_NONZERO_MAGNITUDE ≤ 1 / 2 := by
  unfold LEAST_NONZERO_MAGNITUDE
  norm_num

/-! Helper lemmas about the row maximum, the exponentiated row and its sum. -/

lemma le_rowMax {n : ℕ} [NeZero n] (M : Matrix (Fin n) (Fin n) ℝ) (i j : Fin n) :
    M i j ≤ rowMax M i := by
  unfold rowMax
  exact Finset.le_sup' _ (Finset.mem_univ j)

lemma exists_rowMax {n : ℕ} [NeZero n] (M : Matrix (Fin n) (Fin n) ℝ) (i : Fin n) :
    ∃ j, M i j = rowMax M i := by
  haveI : Nonempty (Fin n) := ⟨⟨0, Nat.pos_of_ne_zero (NeZero.ne n)⟩⟩
  unfold rowMax
  obtain ⟨j, -, hj⟩ := Finset.exists_mem_eq_sup' Finset.univ_nonempty fun j => M i j
  exact ⟨j, hj.symm⟩

lemma one_le_rowSum {n : ℕ} [NeZero n] (M : Matrix (Fin n) (Fin n) ℝ) (i : Fin n) :
    1 ≤ rowSum M i := by
  obtain ⟨j0, hj0⟩ := exists_rowMax M i
  have h1 : rowExp M i j0 = 1 := by rw [rowExp, hj0, sub_self, Real.exp_zero]
  have h2 : rowExp M i j0 ≤ ∑ j, rowExp M i j := by
    apply Finset.single_le_sum
    · intro j _
      exact (Real.exp_pos _).le
    · exact Finset.mem_univ j0
  rw [h1] at h2
  exact h2

lemma rowSum_pos {n : ℕ} [NeZero n] (M : Matrix (Fin n) (Fin n) ℝ) (i : Fin n) :
    0 < rowSum M i :=
  lt_of_lt_of_le one_pos (one_le_rowSum M i)

lemma L_lt_rowSum {n : ℕ} [NeZero n] (M : Matrix (Fin n) (Fin n) ℝ) (i : Fin n) :
    LEAST_NONZERO_MAGNITUDE < rowSum M i :=
  lt_of_lt_of_le L_lt_one (one_le_rowSum M i)

/-- The guard `row_sum > LEAST_NONZERO_MAGNITUDE` of `soft_max` always holds,
so a loop iteration always takes the normalizing branch. -/
lemma softMaxStep_apply {n : ℕ} [NeZero n] (M : Matrix (Fin n) (Fin n) ℝ) (i a b : Fin n) :
    softMaxStep M i a b =
      if a = i then rowExp M i b / rowSum M i
      else if b = i then rowExp M i a / rowSum M i
      else M a b := by
  rw [softMaxStep, if_pos (L_lt_rowSum M i)]

/-- Immediately after its own loop iteration, row i sums to 1. -/
lemma sum_row_softMaxStep {n : ℕ} [NeZero n] (M : Matrix (Fin n) (Fin n) ℝ) (i : Fin n) :
    ∑ j, softMaxStep M i i j = 1 := by
  have h : ∀ j : Fin n, softMaxStep M i i j = rowExp M i j / rowSum M i := by
    intro j
    rw [softMaxStep_apply, if_pos rfl]
  rw [Finset.sum_congr rfl fun j _ => h j, ← Finset.sum_div]
  have hs : ∑ j, rowExp M i j = rowSum M i := rfl
  rw [hs]
  exact div_self (ne_of_gt (rowSum_pos M i))

lemma soft_max_of_not_empty {n : ℕ} [NeZero n] (M : Matrix (Fin n) (Fin n) ℝ)
    (h : ¬is_empty M) : soft_max M = (List.finRange n).foldl softMaxStep M := by
  rw [soft_max, if_neg h]

lemma soft_max_fin2 (M : Matrix (Fin 2) (Fin 2) ℝ) :
    soft_max M = softMaxStep (softMaxStep M 0) 1 := by
  have h : ¬is_empty M := fun hc => absurd hc.1 (by norm_num)
  rw [soft_max_of_not_empty M h]
  have h2 : List.finRange 2 = [0, 1] := by decide
  rw [h2]
  rfl

lemma rowMax_fin2 (M : Matrix (Fin 2) (Fin 2) ℝ) (i : Fin 2) :
    rowMax M i = max (M i 0) (M i 1) := by
  apply le_antisymm
  · unfold rowMax
    apply Finset.sup'_le
    intro j _
    fin_cases j
    · exact le_max_left _ _
    · exact le_max_right _ _
  · exact max_le (le_rowMax M i 0) (le_rowMax M i 1)

lemma rowSum_fin2 (M : Matrix (Fin 2) (Fin 2) ℝ) (i : Fin 2) :
    rowSum M i = rowExp M i 0 + rowExp M i 1 := by
  rw [rowSum, Fin.sum_univ_two]

/-! Quantitative bounds on the exponential, used for concrete evaluations. -/

lemma exp_neg_le_inv_add_one {t : ℝ} (ht : 0 ≤ t) : Real.exp (-t) ≤ (1 + t)⁻¹ := by
  rw [Real.exp_neg, inv_le_inv₀ (Real.exp_pos t) (by linarith : (0:ℝ) < 1 + t)]
  linarith [Real.add_one_le_exp t]

lemma exp_neg_half_le : Real.exp (-(1 / 2 : ℝ)) ≤ 2 / 3 := by
  have h := exp_neg_le_inv_add_one (by norm_num : (0:ℝ) ≤ 1 / 2)
  have h2 : ((1 : ℝ) + 1 / 2)⁻¹ = 2 / 3 := by norm_num
  rw [h2] at h
  exact h

lemma exp_neg_half_lt_one : Real.exp (-(1 / 2 : ℝ)) < 1 :=
  Real.exp_lt_one_iff.mpr (by norm_num)

/-! Symmetry of the result of the row loop: iteration i writes the same
normalized values into row i and column i, and later iterations keep any pair
already equal, so the final matrix is symmetric. -/

lemma softMaxStep_pair_symm {n : ℕ} [NeZero n] (M : Matrix (Fin n) (Fin n) ℝ) (i b : Fin n) :
    softMaxStep M i i b = softMaxStep M i b i := by
  rw [softMaxStep_apply, softMaxStep_apply]
  by_cases hb : b = i
  · subst hb; simp
  · simp [hb]

lemma softMaxStep_preserves_pair {n : ℕ} [NeZero n] (M : Matrix (Fin n) (Fin n) ℝ)
    (j a b : Fin n) (h : M a b = M b a) : softMaxStep M j a b = softMaxStep M j b a := by
  rw [softMaxStep_apply, softMaxStep_apply]
  by_cases ha : a = j <;> by_cases hb : b = j <;> simp [ha, hb, h]

lemma foldl_preserves_pair {n : ℕ} [NeZero n] (l : List (Fin n)) (M : Matrix (Fin n) (Fin n) ℝ)
    (a b : Fin n) (h : M a b = M b a) :
    (l.foldl softMaxStep M) a b = (l.foldl softMaxStep M) b a := by
  induction l generalizing M with
  | nil => exact h
  | cons j t ih => exact ih (softMaxStep M j) (softMaxStep_preserves_pair M j a b h)

lemma foldl_pair_symm {n : ℕ} [NeZero n] (l : List (Fin n)) (M : Matrix (Fin n) (Fin n) ℝ)
    (a b : Fin n) (hmem : a ∈ l ∨ b ∈ l) :
    (l.foldl softMaxStep M) a b = (l.foldl softMaxStep M) b a := by
  revert hmem
  induction l generalizing M with
  | nil =>
    intro hmem
    rcases hmem with h | h <;> exact absurd h (List.not_mem_nil _)
  | cons j t ih =>
    intro hmem
    by_cases ht : a ∈ t ∨ b ∈ t
    · exact ih (softMaxStep M j) ht
    · push_neg at ht
      have hj : a = j ∨ b = j := by
        rcases hmem with h | h
        · rcases List.mem_cons.mp h with h | h
          · exact Or.inl h
          · exact absurd h ht.1
        · rcases List.mem_cons.mp h with h | h
          · exact Or.inr h
          · exact absurd h ht.2
      have hsym : softMaxStep M j a b = softMaxStep M j b a := by
        rcases hj with rfl | rfl
        · exact softMaxStep_pair_symm M a b
        · exact (softMaxStep_pair_symm M b a).symm
      rw [List.foldl_cons]
      exact foldl_preserves_pair t (softMaxStep M j) a b hsym

/-! The last row of the loop result is normalized last and nothing after it
can disturb it, so it sums to 1. -/

lemma soft_max_last_row {m : ℕ} (M : Matrix (Fin (m + 1)) (Fin (m + 1)) ℝ)
    (h : ¬is_empty M) :
    ∑ j, soft_max M (Fin.last m) j = 1 := by
  rw [soft_max_of_not_empty M h, List.finRange_succ_last, List.foldl_append,
    List.foldl_cons, List.foldl_nil]
  exact sum_row_softMaxStep _ _

/-! The uniform matrix with all entries 1/n is a fixed point of the loop. -/

lemma softMaxStep_uniform {n : ℕ} [NeZero n] (i : Fin n) :
    softMaxStep (fun _ _ => (n : ℝ)⁻¹) i = fun _ _ => (n : ℝ)⁻¹ := by
  funext a b
  have hmax : rowMax (fun _ _ => (n : ℝ)⁻¹ : Matrix (Fin n) (Fin n) ℝ) i = (n : ℝ)⁻¹ := by
    haveI : Nonempty (Fin n) := ⟨⟨0, Nat.pos_of_ne_zero (NeZero.ne n)⟩⟩
    unfold rowMax
    exact Finset.sup'_const _ _
  have hexp : ∀ j, rowExp (fun _ _ => (n : ℝ)⁻¹ : Matrix (Fin n) (Fin n) ℝ) i j = 1 := by
    intro j
    rw [rowExp, hmax]
    simp
  have hsum : rowSum (fun _ _ => (n : ℝ)⁻¹ : Matrix (Fin n) (Fin n) ℝ) i = n := by
    rw [rowSum, Finset.sum_congr rfl fun j _ => hexp j]
    simp [Finset.card_univ]
  rw [softMaxStep_apply]
  split_ifs with h1 h2
  · rw [hexp, hsum, one_div]
  · rw [hexp, hsum, one_div]
  · rfl

lemma foldl_uniform {n : ℕ} [NeZero n] (l : List (Fin n)) :
    l.foldl softMaxStep (fun _ _ => (n : ℝ)⁻¹) = fun _ _ => (n : ℝ)⁻¹ := by
  induction l with
  | nil => rfl
  | cons j t ih =>
    rw [List.foldl_cons, softMaxStep_uniform]
    exact ih

lemma uniform_not_empty {m : ℕ} :
    ¬is_empty (fun _ _ => ((m + 1 : ℕ) : ℝ)⁻¹ : Matrix (Fin (m + 1)) (Fin (m + 1)) ℝ) := by
  rintro ⟨h1, h2⟩
  have hz := h2 0 0
  have hne : ((m + 1 : ℕ) : ℝ) ≠ 0 := Nat.cast_ne_zero.mpr (Nat.succ_ne_zero m)
  exact inv_ne_zero hne hz

lemma soft_max_uniform {m : ℕ} :
    soft_max (fun _ _ => ((m + 1 : ℕ) : ℝ)⁻¹ : Matrix (Fin (m + 1)) (Fin (m + 1)) ℝ) =
      fun _ _ => ((m + 1 : ℕ) : ℝ)⁻¹ := by
  rw [soft_max_of_not_empty _ uniform_not_empty]
  exact foldl_uniform _

lemma soft_max_empty_sentinel : soft_max empty_matrix = empty_matrix := by
  rw [soft_max, if_pos]
  exact ⟨rfl, fun i j => rfl⟩

/-! Concrete evaluation of the two loop iterations of `soft_max` on the 2 by 2
all-ones matrix (the Scenario 3 merge input). -/

lemma ones2_rowExp : ∀ j : Fin 2, rowExp ones2 0 j = 1 := by
  have e1 : rowMax ones2 0 = 1 := by
    rw [rowMax_fin2]
    norm_num [ones2]
  intro j
  rw [rowExp, e1]
  simp [ones2]

lemma ones2_rowSum : rowSum ones2 0 = 2 := by
  rw [rowSum_fin2, ones2_rowExp, ones2_rowExp]
  norm_num

lemma step_ones2_00 : softMaxStep ones2 0 0 0 = 1 / 2 := by
  rw [softMaxStep_apply, if_pos rfl, ones2_rowExp, ones2_rowSum]

lemma step_ones2_10 : softMaxStep ones2 0 1 0 = 1 / 2 := by
  rw [softMaxStep_apply, if_neg (by decide), if_pos rfl, ones2_rowExp, ones2_rowSum]

lemma step_ones2_11 : softMaxStep ones2 0 1 1 = 1 := by
  rw [softMaxStep_apply, if_neg (by decide), if_neg (by decide)]
  rfl

lemma step2_ones2_rowMax : rowMax (softMaxStep ones2 0) 1 = 1 := by
  rw [rowMax_fin2, step_ones2_10, step_ones2_11]
  norm_num

lemma step2_ones2_rowExp0 :
    rowExp (softMaxStep ones2 0) 1 0 = Real.exp (-(1 / 2 : ℝ)) := by
  rw [rowExp, step2_ones2_rowMax, step_ones2_10]
  norm_num

lemma step2_ones2_rowExp1 : rowExp (softMaxStep ones2 0) 1 1 = 1 := by
  rw [rowExp, step2_ones2_rowMax, step_ones2_11]
  simp

lemma step2_ones2_rowSum :
    rowSum (softMaxStep ones2 0) 1 = Real.exp (-(1 / 2 : ℝ)) + 1 := by
  rw [rowSum_fin2, step2_ones2_rowExp0, step2_ones2_rowExp1]

lemma soft_max_ones2_00 : soft_max ones2 0 0 = 1 / 2 := by
  rw [soft_max_fin2, softMaxStep_apply, if_neg (by decide), if_neg (by decide)]
  exact step_ones2_00

lemma soft_max_ones2_01 :
    soft_max ones2 0 1 =
      Real.exp (-(1 / 2 : ℝ)) / (Real.exp (-(1 / 2 : ℝ)) + 1) := by
  rw [soft_max_fin2, softMaxStep_apply, if_neg (by decide), if_pos rfl,
    step2_ones2_rowExp0, step2_ones2_rowSum]

lemma mat3_sum : mat3A + mat3B = ones2 := by
  funext a b
  fin_cases a <;> fin_cases b <;>
    simp [mat3A, mat3B, ones2, Matrix.add_apply]

/-! Concrete evaluation of `soft_max` on the 2 by 2 zero matrix, and of the
entry (0, 0) of a second application of `soft_max` to the result. -/

lemma zero2_rowExp : ∀ j : Fin 2, rowExp zero2 0 j = 1 := by
  have e1 : rowMax zero2 0 = 0 := by
    rw [rowMax_fin2]
    norm_num [zero2]
  intro j
  rw [rowExp, e1]
  simp [zero2]

lemma zero2_rowSum : rowSum zero2 0 = 2 := by
  rw [rowSum_fin2, zero2_rowExp, zero2_rowExp]
  norm_num

lemma step_zero2_00 : softMaxStep zero2 0 0 0 = 1 / 2 := by
  rw [softMaxStep_apply, if_pos rfl, zero2_rowExp, zero2_rowSum]

lemma step_zero2_10 : softMaxStep zero2 0 1 0 = 1 / 2 := by
  rw [softMaxStep_apply, if_neg (by decide), if_pos rfl, zero2_rowExp, zero2_rowSum]

lemma step_zero2_11 : softMaxStep zero2 0 1 1 = 0 := by
  rw [softMaxStep_apply, if_neg (by decide), if_neg (by decide)]
  rfl

lemma step2_zero2_rowMax : rowMax (softMaxStep zero2 0) 1 = 1 / 2 := by
  rw [rowMax_fin2, step_zero2_10, step_zero2_11]
  norm_num

lemma step2_zero2_rowExp0 : rowExp (softMaxStep zero2 0) 1 0 = 1 := by
  rw [rowExp, step2_zero2_rowMax, step_zero2_10]
  simp

lemma step2_zero2_rowExp1 :
    rowExp (softMaxStep zero2 0) 1 1 = Real.exp (-(1 / 2 : ℝ)) := by
  rw [rowExp, step2_zero2_rowMax, step_zero2_11]
  norm_num

lemma step2_zero2_rowSum :
    rowSum (softMaxStep zero2 0) 1 = 1 + Real.exp (-(1 / 2 : ℝ)) := by
  rw [rowSum_fin2, step2_zero2_rowExp0, step2_zero2_rowExp1]

lemma soft_max_zero2_00 : soft_max zero2 0 0 = 1 / 2 := by
  rw [soft_max_fin2, softMaxStep_apply, if_neg (by decide), if_neg (by decide)]
  exact step_zero2_00

lemma soft_max_zero2_01 :
    soft_max zero2 0 1 = 1 / (1 + Real.exp (-(1 / 2 : ℝ))) := by
  rw [soft_max_fin2, softMaxStep_apply, if_neg (by decide), if_pos rfl,
    step2_zero2_rowExp0, step2_zero2_rowSum]

lemma S0_rowMax :
    rowMax (soft_max zero2) 0 = 1 / (1 + Real.exp (-(1 / 2 : ℝ))) := by
  rw [rowMax_fin2, soft_max_zero2_00, soft_max_zero2_01]
  have hx1 : Real.exp (-(1 / 2 : ℝ)) < 1 := exp_neg_half_lt_one
  have hx0 : 0 < Real.exp (-(1 / 2 : ℝ)) := Real.exp_pos _
  rw [max_eq_right]
  rw [div_le_div_iff₀ (by norm_num) (by linarith)]
  linarith

lemma S0_rowExp0 :
    rowExp (soft_max zero2) 0 0 =
      Real.exp (1 / 2 - 1 / (1 + Real.exp (-(1 / 2 : ℝ)))) := by
  rw [rowExp, S0_rowMax, soft_max_zero2_00]

lemma S0_rowExp1 : rowExp (soft_max zero2) 0 1 = 1 := by
  rw [rowExp, S0_rowMax, soft_max_zero2_01]
  simp

lemma S0_rowSum :
    rowSum (soft_max zero2) 0 =
      Real.exp (1 / 2 - 1 / (1 + Real.exp (-(1 / 2 : ℝ)))) + 1 := by
  rw [rowSum_fin2, S0_rowExp0, S0_rowExp1]

lemma soft_max_twice_zero2_00 :
    soft_max (soft_max zero2) 0 0 =
      Real.exp (1 / 2 - 1 / (1 + Real.exp (-(1 / 2 : ℝ)))) /
        (Real.exp (1 / 2 - 1 / (1 + Real.exp (-(1 / 2 : ℝ)))) + 1) := by
  rw [soft_max_fin2 (soft_max zero2), softMaxStep_apply, if_neg (by decide),
    if_neg (by decide), softMaxStep_apply, if_pos rfl, S0_rowExp0, S0_rowSum]

/-! Helper lemmas for the entropy claims. -/

lemma binEntropy_clip_nonneg (x : ℝ) :
    0 ≤ binEntropy (clip x LEAST_NONZERO_MAGNITUDE (1 - LEAST_NONZERO_MAGNITUDE)) := by
  have hL0 := L_pos
  have hLh := L_le_half
  have hp1 : LEAST_NONZERO_MAGNITUDE ≤ clip x LEAST_NONZERO_MAGNITUDE (1 - LEAST_NONZERO_MAGNITUDE) := by
    unfold clip
    exact le_min (le_max_right _ _) (by linarith)
  have hp2 : clip x LEAST_NONZERO_MAGNITUDE (1 - LEAST_NONZERO_MAGNITUDE) ≤ 1 - LEAST_NONZERO_MAGNITUDE :=
    min_le_right _ _
  have h1 : Real.logb 2 (clip x LEAST_NONZERO_MAGNITUDE (1 - LEAST_NONZERO_MAGNITUDE)) ≤ 0 :=
    Real.logb_nonpos (by norm_num) (by linarith) (by linarith)
  have h2 : Real.logb 2 (1 - clip x LEAST_NONZERO_MAGNITUDE (1 - LEAST_NONZERO_MAGNITUDE)) ≤ 0 :=
    Real.logb_nonpos (by norm_num) (by linarith) (by linarith)
  have m1 : clip x LEAST_NONZERO_MAGNITUDE (1 - LEAST_NONZERO_MAGNITUDE) *
      Real.logb 2 (clip x LEAST_NONZERO_MAGNITUDE (1 - LEAST_NONZERO_MAGNITUDE)) ≤ 0 :=
    mul_nonpos_iff.mpr (Or.inl ⟨by linarith, h1⟩)
  have m2 : (1 - clip x LEAST_NONZERO_MAGNITUDE (1 - LEAST_NONZERO_MAGNITUDE)) *
      Real.logb 2 (1 - clip x LEAST_NONZERO_MAGNITUDE (1 - LEAST_NONZERO_MAGNITUDE)) ≤ 0 :=
    mul_nonpos_iff.mpr (Or.inl ⟨by linarith, h2⟩)
  rw [binEntropy]
  linarith

lemma clip_half :
    clip (1 / 2) LEAST_NONZERO_MAGNITUDE (1 - LEAST_NONZERO_MAGNITUDE) = 1 / 2 := by
  have hLh := L_le_half
  unfold clip
  rw [max_eq_left hLh, min_eq_left (by linarith)]

lemma binEntropy_half : binEntropy (1 / 2) = 1 := by
  rw [binEntropy]
  have h12 : (1 : ℝ) - 1 / 2 = 1 / 2 := by norm_num
  have hl : Real.logb 2 (1 / 2 : ℝ) = -1 := by
    rw [one_div, Real.logb_inv, Real.logb_self_eq_one (by norm_num)]
  rw [h12, hl]
  ring

lemma sum_upper_triangle (n : ℕ) :
    (∑ i : Fin n, ∑ j ∈ Finset.univ.filter (fun j => i ≤ j), (1 : ℝ)) =
      n * (n + 1) / 2 := by
  have hfil : (∑ i : Fin n, ∑ j ∈ Finset.univ.filter (fun j => i ≤ j), (1 : ℝ)) =
      ∑ i : Fin n, ∑ j : Fin n, (if i ≤ j then (1 : ℝ) else 0) :=
    Finset.sum_congr rfl fun i _ => Finset.sum_filter _ _
  have key : ∀ i j : Fin n,
      ((if i ≤ j then (1 : ℝ) else 0) + (if j ≤ i then (1 : ℝ) else 0)) =
        1 + (if i = j then (1 : ℝ) else 0) := by
    intro i j
    rcases lt_trichotomy i j with h | h | h
    · rw [if_pos h.le, if_neg (not_le.mpr h), if_neg h.ne]
    · subst h
      simp
    · rw [if_neg (not_le.mpr h), if_pos h.le, if_neg h.ne']
      ring
  have hswap : (∑ i : Fin n, ∑ j : Fin n, (if j ≤ i then (1 : ℝ) else 0)) =
      ∑ i : Fin n, ∑ j : Fin n, (if i ≤ j then (1 : ℝ) else 0) :=
    Finset.sum_comm
  have hdouble : (∑ i : Fin n, ∑ j : Fin n, (if i ≤ j then (1 : ℝ) else 0)) * 2 =
      n * n + n := by
    have hadd : (∑ i : Fin n, ∑ j : Fin n, (if i ≤ j then (1 : ℝ) else 0)) +
        (∑ i : Fin n, ∑ j : Fin n, (if j ≤ i then (1 : ℝ) else 0)) =
        ∑ i : Fin n, ∑ j : Fin n,
          ((if i ≤ j then (1 : ℝ) else 0) + (if j ≤ i then (1 : ℝ) else 0)) := by
      rw [← Finset.sum_add_distrib]
      exact Finset.sum_congr rfl fun i _ => (Finset.sum_add_distrib).symm
    have hrow : ∀ i : Fin n,
        (∑ j : Fin n, ((if i ≤ j then (1 : ℝ) else 0) + (if j ≤ i then (1 : ℝ) else 0))) =
          (n : ℝ) + 1 := by
      intro i
      rw [Finset.sum_congr rfl fun j _ => key i j, Finset.sum_add_distrib,
        Finset.sum_const, Finset.card_univ, Fintype.card_fin,
        Finset.sum_ite_eq, if_pos (Finset.mem_univ i)]
      simp
    have hconst : (∑ _i : Fin n, ((n : ℝ) + 1)) = n * (n + 1) := by
      rw [Finset.sum_const, Finset.card_univ, Fintype.card_fin, nsmul_eq_mul]
    calc (∑ i : Fin n, ∑ j : Fin n, (if i ≤ j then (1 : ℝ) else 0)) * 2
        = (∑ i : Fin n, ∑ j : Fin n, (if i ≤ j then (1 : ℝ) else 0)) +
          (∑ i : Fin n, ∑ j : Fin n, (if j ≤ i then (1 : ℝ) else 0)) := by
          rw [hswap]; ring
      _ = ∑ i : Fin n, ∑ j : Fin n,
            ((if i ≤ j then (1 : ℝ) else 0) + (if j ≤ i then (1 : ℝ) else 0)) := hadd
      _ = ∑ _i : Fin n, ((n : ℝ) + 1) := Finset.sum_congr rfl fun i _ => hrow i
      _ = n * (n + 1) := hconst
      _ = n * n + n := by ring
  rw [hfil]
  linarith

/-! The claim theorems. -/

/-- C1, counterexample: in Scenario 3 the merge of [[0,1],[1,0]] and
[[1,0],[0,1]] has a row 0 whose sum is 1/2 + e^(-1/2)/(1 + e^(-1/2)), which is
at most 9/10; it does not sum to 1.0 within 1e-9, because the loop iteration
for row 1 overwrote entry (0,1) with its own normalized value. -/
theorem merge_scenario3_row0_not_one :
    ∑ j, matrix_or mat3A mat3B 0 j < 1 - 1 / 1000000000 := by
  unfold matrix_or
  rw [mat3_sum, Fin.sum_univ_two, soft_max_ones2_00, soft_max_ones2_01]
  have hx0 : 0 < Real.exp (-(1 / 2 : ℝ)) := Real.exp_pos _
  have hx23 : Real.exp (-(1 / 2 : ℝ)) ≤ 2 / 3 := exp_neg_half_le
  have h25 : Real.exp (-(1 / 2 : ℝ)) / (Real.exp (-(1 / 2 : ℝ)) + 1) ≤ 2 / 5 := by
    rw [div_le_iff₀ (by linarith)]
    linarith
  linarith

/-- C1, amended: after softMaxNormalize, a row sums to 1 at the moment it is
normalized, and the LAST row of the final result sums to 1 for every
non-sentinel matrix; rows normalized earlier can be perturbed by the symmetric
column writes of later iterations, so not every row of the final result sums
to 1. -/
theorem soft_max_last_row_sums_to_one :
    ∀ (m : ℕ) (M : Matrix (Fin (m + 1)) (Fin (m + 1)) ℝ), ¬is_empty M →
      ∑ j, soft_max M (Fin.last m) j = 1 :=
  fun _ M h => soft_max_last_row M h

/-- Witness for C1 amended, at the Scenario 3 merge input [[1,1],[1,1]]. -/
theorem soft_max_last_row_sums_to_one_witness :
    ¬is_empty ones2 ∧ ∑ j, soft_max ones2 (Fin.last 1) j = 1 := by
  have h : ¬is_empty ones2 := fun hc => absurd hc.1 (by norm_num)
  exact ⟨h, soft_max_last_row_sums_to_one 1 ones2 h⟩

/-- C2, counterexample: softMaxNormalize is not idempotent.  On the 2 by 2
zero matrix a second application moves entry (0,0) from 1/2 down past 10/21, a
change of more than 1/100 — far outside floating tolerance. -/
theorem soft_max_not_idempotent :
    soft_max (soft_max zero2) 0 0 + 1 / 100 < soft_max zero2 0 0 ∧
      soft_max (soft_max zero2) ≠ soft_max zero2 := by
  have hx0 : 0 < Real.exp (-(1 / 2 : ℝ)) := Real.exp_pos _
  have hx23 : Real.exp (-(1 / 2 : ℝ)) ≤ 2 / 3 := exp_neg_half_le
  have h35 : (3 : ℝ) / 5 ≤ 1 / (1 + Real.exp (-(1 / 2 : ℝ))) := by
    rw [div_le_div_iff₀ (by norm_num) (by linarith)]
    linarith
  have hyle : Real.exp (1 / 2 - 1 / (1 + Real.exp (-(1 / 2 : ℝ)))) ≤ 10 / 11 := by
    have h1 : (1 : ℝ) / 2 - 1 / (1 + Real.exp (-(1 / 2 : ℝ))) ≤ -(1 / 10) := by
      linarith
    calc Real.exp (1 / 2 - 1 / (1 + Real.exp (-(1 / 2 : ℝ))))
        ≤ Real.exp (-(1 / 10 : ℝ)) := Real.exp_le_exp.mpr h1
      _ ≤ ((1 : ℝ) + 1 / 10)⁻¹ := exp_neg_le_inv_add_one (by norm_num)
      _ = 10 / 11 := by norm_num
  have hy0 : 0 < Real.exp (1 / 2 - 1 / (1 + Real.exp (-(1 / 2 : ℝ)))) := Real.exp_pos _
  have hmain : soft_max (soft_max zero2) 0 0 + 1 / 100 < soft_max zero2 0 0 := by
    rw [soft_max_twice_zero2_00, soft_max_zero2_00]
    have h21 : Real.exp (1 / 2 - 1 / (1 + Real.exp (-(1 / 2 : ℝ)))) /
        (Real.exp (1 / 2 - 1 / (1 + Real.exp (-(1 / 2 : ℝ)))) + 1) ≤ 10 / 21 := by
      rw [div_le_iff₀ (by linarith)]
      linarith
    linarith
  refine ⟨hmain, fun hc => ?_⟩
  rw [hc] at hmain
  linarith

/-- C2, amended: softMaxNormalize is idempotent on its fixed points — the
uniform matrix with all entries 1/n, and the empty sentinel — but not on
matrices in general. -/
theorem soft_max_idempotent_on_fixed_points :
    (∀ m : ℕ,
      soft_max (soft_max
          (fun _ _ => ((m + 1 : ℕ) : ℝ)⁻¹ : Matrix (Fin (m + 1)) (Fin (m + 1)) ℝ)) =
        soft_max (fun _ _ => ((m + 1 : ℕ) : ℝ)⁻¹)) ∧
      soft_max (soft_max empty_matrix) = soft_max empty_matrix := by
  constructor
  · intro m
    simp only [soft_max_uniform]
  · simp only [soft_max_empty_sentinel]

/-- C3, counterexample: not every operation is total — createWithValue of a
non-positive size and create of empty data signal errors instead of returning
a sentinel. -/
theorem create_errors_on_degenerate_input :
    create_matrix_with_value 0 0 = Except.error "Matrix size must be positive" ∧
      create_matrix ([] : List (List ℝ)) =
        Except.error "Matrix must be non-empty and square" :=
  ⟨rfl, rfl⟩

/-- C3, amended: the constructors and the merge shape guard signal an error
exactly on degenerate input — non-positive size, ragged (inhomogeneous) data,
empty or non-square data, mismatched shapes — and succeed otherwise; the
query operations remain total with sentinel outputs. -/
theorem error_exactly_on_degenerate_input :
    (∀ (size : ℤ) (value : ℝ),
      okResult (create_matrix_with_value size value) ↔ 0 < size) ∧
      (∀ matrix_data : List (List ℝ),
        okResult (create_matrix matrix_data) ↔
          (∀ r ∈ matrix_data, r.length = (matrix_data.headD []).length) ∧
            matrix_data.length ≠ 0 ∧
            (matrix_data.headD []).length = matrix_data.length) ∧
      (∀ (n m : ℕ) (A : Matrix (Fin (n + 1)) (Fin (n + 1)) ℝ)
          (B : Matrix (Fin m) (Fin m) ℝ),
        okResult (matrix_or_checked A B) ↔ n + 1 = m) := by
  refine ⟨?_, ?_, ?_⟩
  · intro size value
    unfold create_matrix_with_value okResult
    split_ifs with h
    · constructor
      · rintro ⟨a, ha⟩
        exact ha.elim
      · intro hpos
        omega
    · constructor
      · intro _
        omega
      · intro _
        exact ⟨_, rfl⟩
  · intro matrix_data
    unfold create_matrix okResult
    split_ifs with h1 h2
    · constructor
      · rintro ⟨a, ha⟩
        exact ha.elim
      · intro hok
        obtain ⟨r, hr, hne⟩ := h1
        exact (hne (hok.1 r hr)).elim
    · constructor
      · rintro ⟨a, ha⟩
        exact ha.elim
      · intro hok
        rcases h2 with h | h
        · exact (hok.2.1 h).elim
        · exact (h hok.2.2).elim
    · constructor
      · intro _
        push_neg at h1 h2
        exact ⟨h1, h2.1, h2.2⟩
      · intro _
        exact ⟨_, rfl⟩
  · intro n m A B
    unfold matrix_or_checked okResult
    split_ifs with h
    · constructor
      · intro _
        exact h
      · intro _
        exact ⟨_, rfl⟩
    · constructor
      · rintro ⟨a, ha⟩
        exact ha.elim
      · intro hm
        exact absurd hm h

/-- C4, counterexample: the 1 by 1 matrix [[-1]] is not the empty sentinel and
has no all-zero row or column, yet is_valid is false for it, because its entry
is not strictly above the floor. -/
theorem is_valid_not_characterized_by_zero_rows :
    ¬is_valid negOne1 ∧
      ¬(is_empty negOne1 ∨ (∃ i, ∀ j, negOne1 i j = 0) ∨
          (∃ j, ∀ i, negOne1 i j = 0)) := by
  constructor
  · rintro ⟨-, hrow, -⟩
    obtain ⟨j, hj⟩ := hrow 0
    have hL := L_pos
    simp only [negOne1] at hj
    linarith
  · rintro (⟨-, h2⟩ | ⟨i, hi⟩ | ⟨j, hj⟩)
    · have := h2 0 0
      norm_num [negOne1] at this
    · have := hi 0
      norm_num [negOne1] at this
    · have := hj 0
      norm_num [negOne1] at this

/-- C4, amended: is_valid(M) is false exactly when M is the empty sentinel or
some row or some column of M has no entry strictly above the near-zero floor
LEAST_NONZERO_MAGNITUDE; it is true for every other matrix. -/
theorem is_valid_false_iff :
    ∀ (n : ℕ) (M : Matrix (Fin n) (Fin n) ℝ),
      ¬is_valid M ↔
        is_empty M ∨
          (∃ i, ∀ j, M i j ≤ LEAST_NONZERO_MAGNITUDE) ∨
          (∃ j, ∀ i, M i j ≤ LEAST_NONZERO_MAGNITUDE) := by
  intro n M
  simp only [is_valid, not_and_or, not_not, not_forall, not_exists, not_lt]

/-- C5: softMaxNormalize always produces a symmetric matrix — every pair of
mirror entries of the result is equal (each loop iteration writes the
normalized row into both row i and column i, and any pair is last written by
the iteration of its larger index); in particular the Scenario 3 merge result
is symmetric. -/
theorem soft_max_symmetric :
    ∀ (m : ℕ) (M : Matrix (Fin (m + 1)) (Fin (m + 1)) ℝ) (a b : Fin (m + 1)),
      soft_max M a b = soft_max M b a := by
  intro m M a b
  unfold soft_max
  split_ifs with h
  · rw [h.2 a b, h.2 b a]
  · exact foldl_pair_symm _ M a b (Or.inl (List.mem_finRange a))

/-- C6: merge is order-independent — merge(A,B) and merge(B,A) are the same
matrix (elementwise addition commutes), so their entropies are equal
exactly, in particular within tolerance. -/
theorem merge_entropy_order_independent :
    ∀ (m : ℕ) (A B : Matrix (Fin (m + 1)) (Fin (m + 1)) ℝ),
      calc_entropy (matrix_or A B) = calc_entropy (matrix_or B A) := by
  intro m A B
  exact congrArg (fun X => calc_entropy (soft_max X)) (add_comm A B)

/-- C7: entropy is nonnegative for every matrix, and the uniform matrix of
size n with all entries one half has entropy n(n+1)/2 bits. -/
theorem entropy_nonneg_and_uniform_value :
    (∀ (n : ℕ) (M : Matrix (Fin n) (Fin n) ℝ), 0 ≤ calc_entropy M) ∧
      (∀ n : ℕ,
        calc_entropy (fun _ _ => 1 / 2 : Matrix (Fin n) (Fin n) ℝ) =
          n * (n + 1) / 2) := by
  constructor
  · intro n M
    unfold calc_entropy
    split_ifs with h
    · exact le_refl 0
    · refine Finset.sum_nonneg fun i _ => Finset.sum_nonneg fun j _ => ?_
      exact binEntropy_clip_nonneg (M i j)
  · intro n
    unfold calc_entropy
    rw [if_neg]
    · have hterm : ∀ i j : Fin n,
          binEntropy (clip ((fun _ _ => 1 / 2 : Matrix (Fin n) (Fin n) ℝ) i j)
            LEAST_NONZERO_MAGNITUDE (1 - LEAST_NONZERO_MAGNITUDE)) = 1 := by
        intro i j
        show binEntropy (clip (1 / 2) LEAST_NONZERO_MAGNITUDE
          (1 - LEAST_NONZERO_MAGNITUDE)) = 1
        rw [clip_half, binEntropy_half]
      calc (∑ i : Fin n, ∑ j ∈ Finset.univ.filter (fun j => i ≤ j),
              binEntropy (clip ((fun _ _ => 1 / 2 : Matrix (Fin n) (Fin n) ℝ) i j)
                LEAST_NONZERO_MAGNITUDE (1 - LEAST_NONZERO_MAGNITUDE)))
          = ∑ i : Fin n, ∑ j ∈ Finset.univ.filter (fun j => i ≤ j), (1 : ℝ) :=
            Finset.sum_congr rfl fun i _ =>
              Finset.sum_congr rfl fun j _ => hterm i j
        _ = n * (n + 1) / 2 := sum_upper_triangle n
    · rintro ⟨h1, h2⟩
      subst h1
      have := h2 0 0
      norm_num at this

/-- C8: on the empty sentinel (the 1 by 1 zero matrix) both entropy and
is_valid are defined and total: entropy returns 0 and is_valid returns
false. -/
theorem empty_sentinel_entropy_zero_invalid :
    calc_entropy empty_matrix = 0 ∧ ¬is_valid empty_matrix := by
  constructor
  · rw [calc_entropy, if_pos ⟨rfl, fun i j => rfl⟩]
  · rintro ⟨hne, -, -⟩
    exact hne ⟨rfl, fun i j => rfl⟩

/-- C9: at every planner state the action space is exactly the six door
choices 0 through 5. -/
theorem getPossibleActions_is_six_doors :
    ∀ s : State, s.getPossibleActions = [0, 1, 2, 3, 4, 5] :=
  fun _ => rfl

/-- C10: the skip branch of softMaxNormalize is unreachable — for every
matrix and every row, the exponentiated row sum is at least 1 (the row
maximum contributes exp 0 = 1), so it exceeds the floor and every loop
iteration takes the normalizing branch. -/
theorem softMaxStep_always_normalizes :
    ∀ (m : ℕ) (M : Matrix (Fin (m + 1)) (Fin (m + 1)) ℝ) (i : Fin (m + 1)),
      1 ≤ rowSum M i ∧
        softMaxStep M i = fun a b =>
          if a = i then rowExp M i b / rowSum M i
          else if b = i then rowExp M i a / rowSum M i
          else M a b := by
  intro m M i
  refine ⟨one_le_rowSum M i, ?_⟩
  funext a b
  exact softMaxStep_apply M i a b

end PyWorker
